import Mathlib

/-!
Verification of the collection-store core of the todo application
(`src/App.js`): the seeded initial collection, the three mutation
operations (`onInsert`, `onRemove`, `onToggle`), and the stability of
the operation handles.  Entries, collections and the id generator are
embedded shallowly; object identity (structural sharing) is modelled
with an explicit heap of references.
-/

/-- One record of the managed collection: `{ id, text, checked }`. -/
structure Entry where
  id : Nat
  text : String
  checked : Bool
deriving DecidableEq

/-- `createBulkTodos` from `App.js`: entries `{id: i, text: "할 일 " + i,
checked: false}` for `i = 0 .. 25000` (the loop bound is inclusive). -/
def createBulkTodos : List Entry :=
  (List.range 25001).map fun i => { id := i, text := "할 일 " ++ toString i, checked := false }

/-- The component state: the `todos` array (`useState`) and the id
generator `nextId` (`useRef(25001)`). -/
structure AppState where
  todos : List Entry
  nextId : Nat
deriving DecidableEq

/-- The state right after mount: the seeded collection and `nextId = 25001`. -/
def appInit : AppState :=
  { todos := createBulkTodos, nextId := 25001 }

/-- List-level body of `onToggle`:
`todos.map(todo => todo.id === id ? { ...todo, checked: !todo.checked } : todo)`. -/
def toggleTodos (id : Nat) (todos : List Entry) : List Entry :=
  todos.map fun todo => if todo.id = id then { todo with checked := !todo.checked } else todo

/-- List-level body of `onRemove`: `todos.filter(todo => todo.id !== id)`. -/
def removeTodos (id : Nat) (todos : List Entry) : List Entry :=
  todos.filter fun todo => todo.id != id

/-- `onInsert(text)`: build `{id: nextId.current, text, checked: false}`,
append it with `concat`, increment `nextId.current`. -/
def onInsert (text : String) (s : AppState) : AppState :=
  { todos := s.todos ++ [{ id := s.nextId, text := text, checked := false }],
    nextId := s.nextId + 1 }

/-- `onRemove(id)`: keep every entry whose id differs. -/
def onRemove (id : Nat) (s : AppState) : AppState :=
  { s with todos := removeTodos id s.todos }

/-- `onToggle(id)`: flip `checked` on the matching entry, keep the rest. -/
def onToggle (id : Nat) (s : AppState) : AppState :=
  { s with todos := toggleTodos id s.todos }

/-- A user-visible mutation request, dispatched through one of the three handles. -/
inductive Op where
  | insert (text : String)
  | remove (id : Nat)
  | toggle (id : Nat)
deriving DecidableEq

/-- Apply one mutation to the current state. -/
def applyOp (s : AppState) : Op → AppState
  | Op.insert t => onInsert t s
  | Op.remove i => onRemove i s
  | Op.toggle i => onToggle i s

/-- Run a sequence of mutations from a state. -/
def runOps (s : AppState) : List Op → AppState
  | [] => s
  | op :: ops => runOps (applyOp s op) ops

/-- The ids currently present in a state, in collection order. -/
def idsOf (s : AppState) : List Nat :=
  s.todos.map Entry.id

/-- Number of `insert` operations in a sequence. -/
def countInserts : List Op → Nat
  | [] => 0
  | Op.insert _ :: ops => countInserts ops + 1
  | _ :: ops => countInserts ops

/-- Number of `remove` operations whose id exists in the collection at
the moment the remove is applied. -/
def removesOfExisting (s : AppState) : List Op → Nat
  | [] => 0
  | Op.remove i :: ops =>
      (if i ∈ idsOf s then 1 else 0) + removesOfExisting (applyOp s (Op.remove i)) ops
  | op :: ops => removesOfExisting (applyOp s op) ops

/-- The store invariant: ids are pairwise distinct and all below the generator. -/
def StoreInv (s : AppState) : Prop :=
  (idsOf s).Nodup ∧ ∀ e ∈ s.todos, e.id < s.nextId

/-! ### Basic lemmas about the operations -/

lemma toggleTodos_length (id : Nat) (todos : List Entry) :
    (toggleTodos id todos).length = todos.length := by
  simp [toggleTodos]

lemma toggleTodos_map_id (id : Nat) (todos : List Entry) :
    (toggleTodos id todos).map Entry.id = todos.map Entry.id := by
  simp only [toggleTodos, List.map_map]
  apply List.map_congr_left
  intro e _
  by_cases h : e.id = id <;> simp [h]

lemma idsOf_applyOp_toggle (s : AppState) (i : Nat) :
    idsOf (onToggle i s) = idsOf s := by
  simp [idsOf, onToggle, toggleTodos_map_id]

lemma createBulkTodos_length : createBulkTodos.length = 25001 := by
  simp [createBulkTodos]

lemma map_id_fun (l : List Nat) : l.map (fun i => i) = l := by
  induction l with
  | nil => rfl
  | cons x xs ih => rw [List.map_cons, ih]

lemma createBulkTodos_ids : createBulkTodos.map Entry.id = List.range 25001 := by
  unfold createBulkTodos
  rw [List.map_map]
  have h1 : (List.range 25001).map
        (Entry.id ∘ fun i => ({ id := i, text := "할 일 " ++ toString i, checked := false } : Entry))
      = (List.range 25001).map (fun i => i) :=
    List.map_congr_left (fun i _ => rfl)
  exact h1.trans (map_id_fun _)

lemma createBulkTodos_checked : ∀ e ∈ createBulkTodos, e.checked = false := by
  intro e he
  simp only [createBulkTodos, List.mem_map, List.mem_range] at he
  obtain ⟨i, _, rfl⟩ := he
  rfl

/-! ### C10: the seeded initial state -/

/-- C10: the seeded initial collection has exactly 25001 entries, ids
`0 .. 25000` in increasing order, all unchecked, and the generator
starts at 25001, one above the highest seed id. -/
theorem C10_seed_spec :
    appInit.todos.length = 25001 ∧
    appInit.todos.map Entry.id = List.range 25001 ∧
    (∀ e ∈ appInit.todos, e.checked = false) ∧
    appInit.nextId = 25001 := by
  have h : appInit.todos = createBulkTodos := by simp only [appInit]
  refine ⟨?_, ?_, ?_, rfl⟩
  · rw [h]
    exact createBulkTodos_length
  · rw [h]
    exact createBulkTodos_ids
  · rw [h]
    exact createBulkTodos_checked

/-! ### C3: insert appends exactly one entry and bumps the generator -/

/-- C3: `onInsert text` leaves the prior entries unchanged and in order,
appends exactly one entry `{id := nextId, text, checked := false}` at the
end, and increments the generator by one. -/
theorem C3_insert_spec (s : AppState) (text : String) :
    (onInsert text s).todos.length = s.todos.length + 1 ∧
    (onInsert text s).todos.take s.todos.length = s.todos ∧
    (onInsert text s).todos[s.todos.length]? =
      some { id := s.nextId, text := text, checked := false } ∧
    (onInsert text s).nextId = s.nextId + 1 := by
  refine ⟨by simp [onInsert], ?_, ?_, rfl⟩
  · simp [onInsert, List.take_append]
  · simp [onInsert]

/-! ### C1: toggle flips exactly the matching entry -/

/-- C1: `toggleTodos id` preserves the length; the entry at each position
is flipped on `checked` when its id matches and is unchanged otherwise;
when no entry has the id, the result equals the input. -/
theorem C1_toggle_pointwise (todos : List Entry) (id : Nat) :
    (toggleTodos id todos).length = todos.length ∧
    (∀ i : Nat, (toggleTodos id todos)[i]? = (todos[i]?).map fun e =>
        if e.id = id then { e with checked := !e.checked } else e) ∧
    ((∀ e ∈ todos, e.id ≠ id) → toggleTodos id todos = todos) := by
  refine ⟨toggleTodos_length id todos, ?_, ?_⟩
  · intro i
    simp [toggleTodos]
  · intro h
    have hcong : ∀ e ∈ todos,
        (if e.id = id then { e with checked := !e.checked } else e) = e := by
      intro e he
      simp [h e he]
    calc toggleTodos id todos
        = todos.map (fun e => e) := List.map_congr_left hcong
      _ = todos := by simp

/-- Witness for C1 at a concrete collection without the id. -/
theorem C1_toggle_pointwise_witness :
    toggleTodos 3 [⟨1, "a", false⟩, ⟨2, "b", true⟩] = [⟨1, "a", false⟩, ⟨2, "b", true⟩] :=
  (C1_toggle_pointwise [⟨1, "a", false⟩, ⟨2, "b", true⟩] 3).2.2 (by decide)

/-! ### C4: remove keeps exactly the non-matching entries -/

/-- C4: `removeTodos id` yields a sublist of the input (original relative
order) holding each entry with the multiplicity it had when its id
differs and dropping every entry whose id matches; on an absent id both
`removeTodos` and `toggleTodos` return the input unchanged (total, no error). -/
theorem C4_remove_spec (todos : List Entry) (id : Nat) :
    List.Sublist (removeTodos id todos) todos ∧
    (∀ e : Entry, (removeTodos id todos).count e =
        if e.id = id then 0 else todos.count e) ∧
    ((∀ e ∈ todos, e.id ≠ id) →
        removeTodos id todos = todos ∧ toggleTodos id todos = todos) := by
  refine ⟨List.filter_sublist todos, ?_, ?_⟩
  · intro e
    by_cases he : e.id = id
    · rw [if_pos he]
      simp only [removeTodos]
      rw [List.count_eq_zero]
      intro hmem
      have hkept := List.of_mem_filter hmem
      simp [he] at hkept
    · rw [if_neg he]
      simp only [removeTodos]
      apply List.count_filter
      simp [he]
  · intro h
    constructor
    · simp only [removeTodos]
      apply List.filter_eq_self.mpr
      intro e he
      simp [h e he]
    · exact (C1_toggle_pointwise todos id).2.2 h

/-- Witness for C4 at a concrete collection without the id. -/
theorem C4_remove_spec_witness :
    removeTodos 9 [⟨1, "a", false⟩] = [⟨1, "a", false⟩] ∧
    toggleTodos 9 [⟨1, "a", false⟩] = [⟨1, "a", false⟩] :=
  (C4_remove_spec [⟨1, "a", false⟩] 9).2.2 (by decide)

/-! ### C5: toggle is an involution -/

/-- C5: applying `toggleTodos id` twice returns the original collection
(for any id present in it, and in fact for any id at all). -/
theorem C5_toggle_involution (todos : List Entry) (id : Nat)
    (_hmem : id ∈ todos.map Entry.id) :
    toggleTodos id (toggleTodos id todos) = todos := by
  simp only [toggleTodos, List.map_map]
  have hf : ∀ e ∈ todos,
      ((fun todo => if todo.id = id then { todo with checked := !todo.checked } else todo) ∘
        fun todo => if todo.id = id then { todo with checked := !todo.checked } else todo) e
        = e := by
    intro e _
    cases e with
    | mk i t c => by_cases he : i = id <;> simp [Function.comp, he]
  calc todos.map _ = todos.map (fun e => e) := List.map_congr_left hf
    _ = todos := by simp

/-- Witness for C5 at a concrete collection containing the id. -/
theorem C5_toggle_involution_witness :
    toggleTodos 2 (toggleTodos 2 [⟨2, "b", true⟩]) = [⟨2, "b", true⟩] :=
  C5_toggle_involution [⟨2, "b", true⟩] 2 (by decide)

/-! ### Invariant machinery for operation sequences -/

lemma runOps_append (s : AppState) (ops1 ops2 : List Op) :
    runOps s (ops1 ++ ops2) = runOps (runOps s ops1) ops2 := by
  induction ops1 generalizing s with
  | nil => rfl
  | cons op ops ih => exact ih (applyOp s op)

lemma removeTodos_of_not_mem (i : Nat) (todos : List Entry)
    (h : i ∉ todos.map Entry.id) : removeTodos i todos = todos := by
  apply List.filter_eq_self.mpr
  intro e he
  have : e.id ≠ i := fun hc => h (hc ▸ List.mem_map_of_mem Entry.id he)
  simp [this]

lemma ids_removeTodos (i : Nat) (todos : List Entry) :
    (removeTodos i todos).map Entry.id = (todos.map Entry.id).filter (fun n => n != i) := by
  induction todos with
  | nil => rfl
  | cons e es ih =>
    simp only [removeTodos, List.filter_cons, List.map_cons]
    by_cases hcond : (e.id != i) = true
    · rw [if_pos hcond, if_pos hcond, List.map_cons]
      rw [removeTodos] at ih
      rw [ih]
    · rw [if_neg hcond, if_neg hcond]
      rw [removeTodos] at ih
      exact ih

lemma filter_bne_length (l : List Nat) (i : Nat) (hnd : l.Nodup) (hmem : i ∈ l) :
    (l.filter (fun n => n != i)).length + 1 = l.length := by
  induction l with
  | nil => simp at hmem
  | cons n ns ih =>
    rw [List.nodup_cons] at hnd
    rw [List.filter_cons]
    rcases List.mem_cons.mp hmem with h1 | h2
    · subst h1
      rw [if_neg (by simp)]
      have hfix : ns.filter (fun m => m != i) = ns := by
        apply List.filter_eq_self.mpr
        intro m hm
        have hmi : m ≠ i := fun hc => hnd.1 (hc ▸ hm)
        simp [hmi]
      rw [hfix, List.length_cons]
    · have hne : (n != i) = true := by
        have hni : n ≠ i := by
          intro hc
          apply hnd.1
          rw [hc]
          exact h2
        simp [hni]
      rw [if_pos hne, List.length_cons, List.length_cons]
      rw [← ih hnd.2 h2]

lemma onRemove_length_of_mem (s : AppState) (i : Nat)
    (hnd : (idsOf s).Nodup) (hmem : i ∈ idsOf s) :
    (onRemove i s).todos.length + 1 = s.todos.length := by
  have h1 : (onRemove i s).todos.length = ((onRemove i s).todos.map Entry.id).length := by
    simp
  have h2 : s.todos.length = (s.todos.map Entry.id).length := by simp
  rw [h1, h2]
  show ((removeTodos i s.todos).map Entry.id).length + 1 = (s.todos.map Entry.id).length
  rw [ids_removeTodos]
  exact filter_bne_length (s.todos.map Entry.id) i hnd hmem

lemma storeInv_applyOp (s : AppState) (op : Op) (h : StoreInv s) :
    StoreInv (applyOp s op) := by
  obtain ⟨hnd, hlt⟩ := h
  cases op with
  | insert t =>
    constructor
    · show ((s.todos ++ [({ id := s.nextId, text := t, checked := false } : Entry)]).map Entry.id).Nodup
      rw [List.map_append]
      apply List.Nodup.append hnd (by simp)
      intro n hn1 hn2
      simp only [List.map_cons, List.map_nil, List.mem_singleton] at hn2
      subst hn2
      obtain ⟨e, he, hid⟩ := List.mem_map.mp hn1
      exact absurd hid (Nat.ne_of_lt (hlt e he))
    · intro e he
      show e.id < s.nextId + 1
      rcases List.mem_append.mp he with h1 | h2
      · exact Nat.lt_trans (hlt e h1) (Nat.lt_succ_self _)
      · rw [List.mem_singleton.mp h2]
        exact Nat.lt_succ_self _
  | remove i =>
    constructor
    · show ((removeTodos i s.todos).map Entry.id).Nodup
      rw [ids_removeTodos]
      exact hnd.filter _
    · intro e he
      exact hlt e (List.mem_of_mem_filter he)
  | toggle i =>
    constructor
    · show (idsOf (onToggle i s)).Nodup
      rw [idsOf_applyOp_toggle]
      exact hnd
    · intro e he
      have he2 : e ∈ toggleTodos i s.todos := he
      simp only [toggleTodos, List.mem_map] at he2
      obtain ⟨e0, he0, rfl⟩ := he2
      by_cases h0 : e0.id = i <;>
        simpa [h0, applyOp, onToggle] using hlt e0 he0

lemma storeInv_runOps (s : AppState) (ops : List Op) (h : StoreInv s) :
    StoreInv (runOps s ops) := by
  induction ops generalizing s with
  | nil => exact h
  | cons op ops ih => exact ih _ (storeInv_applyOp s op h)

lemma storeInv_appInit : StoreInv appInit := by
  constructor
  · have hids : idsOf appInit = List.range 25001 := by
      simp only [idsOf, appInit]
      exact createBulkTodos_ids
    rw [hids]
    exact List.nodup_range 25001
  · intro e he
    have he2 : e ∈ createBulkTodos := by simpa [appInit] using he
    have hm : e.id ∈ createBulkTodos.map Entry.id := List.mem_map_of_mem Entry.id he2
    rw [createBulkTodos_ids] at hm
    have hlt : e.id < 25001 := List.mem_range.mp hm
    simpa [appInit] using hlt

lemma nextId_applyOp_le (s : AppState) (op : Op) :
    s.nextId ≤ (applyOp s op).nextId := by
  cases op with
  | insert t => exact Nat.le_succ _
  | remove i => exact Nat.le_refl _
  | toggle i => exact Nat.le_refl _

lemma nextId_runOps_le (s : AppState) (ops : List Op) :
    s.nextId ≤ (runOps s ops).nextId := by
  induction ops generalizing s with
  | nil => exact Nat.le_refl _
  | cons op ops ih => exact Nat.le_trans (nextId_applyOp_le s op) (ih _)

lemma runOps_length (ops : List Op) (s : AppState) (h : StoreInv s) :
    (runOps s ops).todos.length + removesOfExisting s ops
      = s.todos.length + countInserts ops := by
  induction ops generalizing s with
  | nil => rfl
  | cons op ops ih =>
    have hnext := ih (applyOp s op) (storeInv_applyOp s op h)
    cases op with
    | insert t =>
      show (runOps (applyOp s (Op.insert t)) ops).todos.length
          + removesOfExisting s (Op.insert t :: ops)
          = s.todos.length + countInserts (Op.insert t :: ops)
      have hlen : (applyOp s (Op.insert t)).todos.length = s.todos.length + 1 := by
        simp [applyOp, onInsert]
      rw [show removesOfExisting s (Op.insert t :: ops)
            = removesOfExisting (applyOp s (Op.insert t)) ops from rfl,
          show countInserts (Op.insert t :: ops) = countInserts ops + 1 from rfl]
      omega
    | remove i =>
      show (runOps (applyOp s (Op.remove i)) ops).todos.length
          + removesOfExisting s (Op.remove i :: ops)
          = s.todos.length + countInserts (Op.remove i :: ops)
      rw [show removesOfExisting s (Op.remove i :: ops)
            = (if i ∈ idsOf s then 1 else 0)
              + removesOfExisting (applyOp s (Op.remove i)) ops from rfl,
          show countInserts (Op.remove i :: ops) = countInserts ops from rfl]
      by_cases hmem : i ∈ idsOf s
      · rw [if_pos hmem]
        have hlen := onRemove_length_of_mem s i h.1 hmem
        have : (applyOp s (Op.remove i)).todos.length + 1 = s.todos.length := hlen
        omega
      · rw [if_neg hmem]
        have hlen : (applyOp s (Op.remove i)).todos.length = s.todos.length := by
          have heq : removeTodos i s.todos = s.todos :=
            removeTodos_of_not_mem i s.todos hmem
          show (removeTodos i s.todos).length = s.todos.length
          rw [heq]
        omega
    | toggle i =>
      show (runOps (applyOp s (Op.toggle i)) ops).todos.length
          + removesOfExisting s (Op.toggle i :: ops)
          = s.todos.length + countInserts (Op.toggle i :: ops)
      rw [show removesOfExisting s (Op.toggle i :: ops)
            = removesOfExisting (applyOp s (Op.toggle i)) ops from rfl,
          show countInserts (Op.toggle i :: ops) = countInserts ops from rfl]
      have hlen : (applyOp s (Op.toggle i)).todos.length = s.todos.length :=
        toggleTodos_length i s.todos
      omega

lemma removesOfExisting_le (s : AppState) (ops : List Op) :
    removesOfExisting s ops ≤ ops.length := by
  induction ops generalizing s with
  | nil => exact Nat.le_refl 0
  | cons op ops ih =>
    cases op with
    | insert t =>
      calc removesOfExisting s (Op.insert t :: ops)
          = removesOfExisting (applyOp s (Op.insert t)) ops := rfl
        _ ≤ ops.length := ih _
        _ ≤ (Op.insert t :: ops).length := by simp
    | remove i =>
      rw [show removesOfExisting s (Op.remove i :: ops)
            = (if i ∈ idsOf s then 1 else 0)
              + removesOfExisting (applyOp s (Op.remove i)) ops from rfl,
          List.length_cons]
      have h1 := ih (applyOp s (Op.remove i))
      by_cases hm : i ∈ idsOf s
      · rw [if_pos hm]; omega
      · rw [if_neg hm]; omega
    | toggle i =>
      calc removesOfExisting s (Op.toggle i :: ops)
          = removesOfExisting (applyOp s (Op.toggle i)) ops := rfl
        _ ≤ ops.length := ih _
        _ ≤ (Op.toggle i :: ops).length := by simp

lemma appInit_length : appInit.todos.length = 25001 := by
  have h : appInit.todos = createBulkTodos := by simp only [appInit]
  rw [h]
  exact createBulkTodos_length

/-! ### C6: length accounting over operation sequences -/

/-- C6 counterexample: on the empty operation sequence the collection
still holds the 25001 seeded entries, while the claim as stated predicts
`inserts - removes_of_existing = 0` entries. -/
theorem C6_length_counterexample :
    ¬ ((runOps appInit []).todos.length
        = countInserts [] - removesOfExisting appInit []) := by
  intro hcontra
  rw [show runOps appInit [] = appInit from rfl,
      show countInserts [] = 0 from rfl,
      show removesOfExisting appInit [] = 0 from rfl,
      appInit_length] at hcontra
  exact absurd hcontra (by decide)

/-- C6 amended: for every operation sequence applied to the seeded
initial collection, the resulting length equals the initial length 25001
plus the number of inserts minus the number of removes whose id existed
at the time of the remove. -/
theorem C6_length_amended (ops : List Op) :
    (runOps appInit ops).todos.length
      = 25001 + countInserts ops - removesOfExisting appInit ops := by
  have h := runOps_length ops appInit storeInv_appInit
  have hlen := appInit_length
  omega

/-! ### C7: ids are pairwise distinct and never reused -/

/-- C7: after any operation sequence the ids in the collection are
pairwise distinct, the entry appended by the next `insert` carries the
current generator value, and that value is strictly above every id that
was present at any earlier point of the sequence — ids are never reused,
even after a removal. -/
theorem C7_ids_never_reused (pre mid : List Op) (text : String) :
    (idsOf (runOps appInit (pre ++ mid))).Nodup ∧
    (runOps appInit (pre ++ mid ++ [Op.insert text])).todos.getLast?
      = some { id := (runOps appInit (pre ++ mid)).nextId,
               text := text, checked := false } ∧
    (∀ e ∈ (runOps appInit pre).todos,
        e.id < (runOps appInit (pre ++ mid)).nextId) := by
  have hpre := storeInv_runOps appInit pre storeInv_appInit
  have hall := storeInv_runOps appInit (pre ++ mid) storeInv_appInit
  refine ⟨hall.1, ?_, ?_⟩
  · rw [runOps_append]
    show (applyOp (runOps appInit (pre ++ mid)) (Op.insert text)).todos.getLast? = _
    simp [applyOp, onInsert]
  · intro e he
    have h1 : e.id < (runOps appInit pre).nextId := hpre.2 e he
    have h2 : (runOps appInit pre).nextId ≤ (runOps appInit (pre ++ mid)).nextId := by
      rw [runOps_append]
      exact nextId_runOps_le _ mid
    omega

/-! ### C9: the insert/remove/toggle scenario -/

lemma createBulkTodos_id_lt : ∀ e ∈ createBulkTodos, e.id < 25001 := by
  intro e he
  have hm : e.id ∈ createBulkTodos.map Entry.id := List.mem_map_of_mem Entry.id he
  rw [createBulkTodos_ids] at hm
  exact List.mem_range.mp hm

lemma removeTodos_seed_append (i : Nat) (hi : 25001 ≤ i) (tail : List Entry) :
    removeTodos i (createBulkTodos ++ tail) = createBulkTodos ++ removeTodos i tail := by
  simp only [removeTodos, List.filter_append]
  have hseed : createBulkTodos.filter (fun todo => todo.id != i) = createBulkTodos := by
    apply List.filter_eq_self.mpr
    intro e he
    have h1 := createBulkTodos_id_lt e he
    have h2 : e.id ≠ i := by omega
    simp [h2]
  rw [hseed]

lemma toggleTodos_seed_append (i : Nat) (hi : 25001 ≤ i) (tail : List Entry) :
    toggleTodos i (createBulkTodos ++ tail) = createBulkTodos ++ toggleTodos i tail := by
  simp only [toggleTodos, List.map_append]
  have hmapid : createBulkTodos.map
      (fun todo => if todo.id = i then { todo with checked := !todo.checked } else todo)
      = createBulkTodos.map (fun e => e) := by
    apply List.map_congr_left
    intro e he
    have h1 := createBulkTodos_id_lt e he
    have h2 : e.id ≠ i := by omega
    simp [h2]
  have hmapid2 : createBulkTodos.map (fun e : Entry => e) = createBulkTodos := by simp
  rw [hmapid, hmapid2]

/-- The scenario operation sequence of the claim: insert "a", "b", "c",
then remove and toggle the claimed second and third ids. -/
def scenarioOps : List Op :=
  [Op.insert "a", Op.insert "b", Op.insert "c", Op.remove 1, Op.toggle 2]

/-- C9 counterexample: running the claimed scenario from the program's
initial state cannot give the two-element collection the claim names,
because the seeded entries are still present (the result holds 25003
entries). -/
theorem C9_scenario_counterexample :
    ¬ ((runOps appInit scenarioOps).todos
        = [{ id := 0, text := "a", checked := false },
           { id := 2, text := "c", checked := true }]) := by
  intro hcontra
  have hlen : (runOps appInit scenarioOps).todos.length = 2 := by
    rw [hcontra]
    rfl
  have hrun := runOps_length scenarioOps appInit storeInv_appInit
  have hbound := removesOfExisting_le appInit scenarioOps
  have hinit := appInit_length
  have hCI : countInserts scenarioOps = 3 := rfl
  have hOL : scenarioOps.length = 5 := rfl
  omega

/-- C9 amended: from the program's initial state (25001 seeded entries,
generator at 25001) the inserts of "a", "b", "c" are assigned ids 25001,
25002, 25003; removing the second and toggling the third yields the
seeded entries followed by `{25001,"a",false}` and `{25003,"c",true}`,
with the generator at 25004. -/
theorem C9_scenario_amended :
    runOps appInit
        [Op.insert "a", Op.insert "b", Op.insert "c",
         Op.remove 25002, Op.toggle 25003]
      = { todos := createBulkTodos ++
            [{ id := 25001, text := "a", checked := false },
             { id := 25003, text := "c", checked := true }],
          nextId := 25004 } := by
  have hsplit : ([Op.insert "a", Op.insert "b", Op.insert "c",
      Op.remove 25002, Op.toggle 25003] : List Op)
      = [Op.insert "a", Op.insert "b", Op.insert "c"]
        ++ [Op.remove 25002, Op.toggle 25003] := rfl
  have h3 : runOps appInit [Op.insert "a", Op.insert "b", Op.insert "c"]
      = { todos := createBulkTodos ++
            [{ id := 25001, text := "a", checked := false },
             { id := 25002, text := "b", checked := false },
             { id := 25003, text := "c", checked := false }],
          nextId := 25004 } := by
    simp [runOps, applyOp, onInsert, appInit]
  rw [hsplit, runOps_append, h3]
  show applyOp (applyOp _ (Op.remove 25002)) (Op.toggle 25003) = _
  simp only [applyOp, onRemove, onToggle]
  rw [removeTodos_seed_append 25002 (by omega),
      show removeTodos 25002
          [{ id := 25001, text := "a", checked := false },
           { id := 25002, text := "b", checked := false },
           { id := 25003, text := "c", checked := false }]
        = [{ id := 25001, text := "a", checked := false },
           { id := 25003, text := "c", checked := false }] from by decide,
      toggleTodos_seed_append 25003 (by omega),
      show toggleTodos 25003
          [{ id := 25001, text := "a", checked := false },
           { id := 25003, text := "c", checked := false }]
        = [{ id := 25001, text := "a", checked := false },
           { id := 25003, text := "c", checked := true }] from by decide]

/-! ### C2: structural sharing, modelled with an explicit heap of objects -/

/-- A reference to an entry object (a JS object identity). -/
abbrev Ref := Nat

/-- A heap of entry objects: the object stored at each reference, and
the next fresh reference. -/
structure Heap where
  objs : Ref → Entry
  next : Ref

/-- Allocate the copy `{ ...todo, checked: !todo.checked }` of the object
at `r` as a new object and advance the allocation front. -/
def allocFlip (h : Heap) (r : Ref) : Heap :=
  { objs := Function.update h.objs h.next
      { h.objs r with checked := !(h.objs r).checked },
    next := h.next + 1 }

/-- `onToggle`'s `map` at the reference level: a matching entry is
replaced by a freshly allocated flipped copy; a non-matching entry keeps
its reference. -/
def toggleRefs (id : Nat) : Heap → List Ref → Heap × List Ref
  | h, [] => (h, [])
  | h, r :: rs =>
    if (h.objs r).id = id then
      ((toggleRefs id (allocFlip h r) rs).1,
        h.next :: (toggleRefs id (allocFlip h r) rs).2)
    else
      ((toggleRefs id h rs).1, r :: (toggleRefs id h rs).2)

/-- `onInsert`'s `concat` at the reference level: the object literal
allocates exactly one fresh object; every prior reference is shared. -/
def insertRefs (h : Heap) (nid : Nat) (text : String) (coll : List Ref) :
    Heap × List Ref :=
  ({ objs := Function.update h.objs h.next { id := nid, text := text, checked := false },
     next := h.next + 1 },
   coll ++ [h.next])

lemma toggleRefs_next_le (id : Nat) (coll : List Ref) :
    ∀ h : Heap, h.next ≤ (toggleRefs id h coll).1.next := by
  induction coll with
  | nil => intro h; exact Nat.le_refl _
  | cons r rs ih =>
    intro h
    by_cases hc : (h.objs r).id = id
    · rw [toggleRefs, if_pos hc]
      have h1 := ih (allocFlip h r)
      have h2 : h.next ≤ (allocFlip h r).next := Nat.le_succ _
      exact Nat.le_trans h2 h1
    · rw [toggleRefs, if_neg hc]
      exact ih h

lemma toggleRefs_objs_preserved (id : Nat) (coll : List Ref) :
    ∀ (h : Heap) (r : Ref), r < h.next →
      (toggleRefs id h coll).1.objs r = h.objs r := by
  induction coll with
  | nil => intro h r _; rfl
  | cons r0 rs ih =>
    intro h r hr
    by_cases hc : (h.objs r0).id = id
    · rw [toggleRefs, if_pos hc]
      have hlt : r < (allocFlip h r0).next := Nat.lt_succ_of_lt hr
      have hstep := ih (allocFlip h r0) r hlt
      rw [hstep]
      show Function.update h.objs h.next _ r = h.objs r
      apply Function.update_noteq
      exact Nat.ne_of_lt hr
    · rw [toggleRefs, if_neg hc]
      exact ih h r hr

lemma toggleRefs_length (id : Nat) (coll : List Ref) :
    ∀ h : Heap, (toggleRefs id h coll).2.length = coll.length := by
  induction coll with
  | nil => intro h; rfl
  | cons r rs ih =>
    intro h
    by_cases hc : (h.objs r).id = id
    · rw [toggleRefs, if_pos hc]
      simp [ih]
    · rw [toggleRefs, if_neg hc]
      simp [ih]

lemma toggleRefs_frame (id : Nat) (coll : List Ref) :
    ∀ h : Heap, (∀ r ∈ coll, r < h.next) →
      ∀ i : Nat, ∀ hi : i < coll.length,
        (h.objs (coll.get ⟨i, hi⟩)).id ≠ id →
        (toggleRefs id h coll).2[i]? = some (coll.get ⟨i, hi⟩) := by
  induction coll with
  | nil =>
    intro h _ i hi
    exact absurd hi (Nat.not_lt_zero i)
  | cons r rs ih =>
    intro h hwf i hi hne
    by_cases hc : (h.objs r).id = id
    · rw [toggleRefs, if_pos hc]
      cases i with
      | zero => exact absurd hc hne
      | succ j =>
        show (List.cons h.next (toggleRefs id (allocFlip h r) rs).2)[j+1]? = _
        rw [List.getElem?_cons_succ]
        have hj : j < rs.length := Nat.lt_of_succ_lt_succ hi
        have hwf2 : ∀ r2 ∈ rs, r2 < (allocFlip h r).next := by
          intro r2 hr2
          have hr2lt := hwf r2 (List.mem_cons_of_mem r hr2)
          exact Nat.lt_succ_of_lt hr2lt
        have hmemj : rs.get ⟨j, hj⟩ ∈ rs := rs.get_mem j hj
        have hobjEq : (allocFlip h r).objs (rs.get ⟨j, hj⟩) = h.objs (rs.get ⟨j, hj⟩) := by
          apply Function.update_noteq
          exact Nat.ne_of_lt (hwf (rs.get ⟨j, hj⟩) (List.mem_cons_of_mem r hmemj))
        have hne2 : ((allocFlip h r).objs (rs.get ⟨j, hj⟩)).id ≠ id := by
          rw [hobjEq]
          exact hne
        exact ih (allocFlip h r) hwf2 j hj hne2
    · rw [toggleRefs, if_neg hc]
      cases i with
      | zero => simp
      | succ j =>
        show (List.cons r (toggleRefs id h rs).2)[j+1]? = _
        rw [List.getElem?_cons_succ]
        have hj : j < rs.length := Nat.lt_of_succ_lt_succ hi
        have hwf2 : ∀ r2 ∈ rs, r2 < h.next := by
          intro r2 hr2
          exact hwf r2 (List.mem_cons_of_mem r hr2)
        exact ih h hwf2 j hj hne

/-- C2: at the reference level, `toggle` keeps every entry whose id does
not match reference-identical (same reference, pointing at an untouched
object), and `insert` returns all prior references unchanged plus one
fresh reference; neither operation overwrites a previously allocated
object. -/
theorem C2_structural_sharing (h : Heap) (id nid : Nat) (text : String)
    (coll : List Ref) (hwf : ∀ r ∈ coll, r < h.next) :
    (toggleRefs id h coll).2.length = coll.length ∧
    (∀ i : Nat, ∀ hi : i < coll.length,
        (h.objs (coll.get ⟨i, hi⟩)).id ≠ id →
        (toggleRefs id h coll).2[i]? = some (coll.get ⟨i, hi⟩)) ∧
    (∀ r, r < h.next → (toggleRefs id h coll).1.objs r = h.objs r) ∧
    (insertRefs h nid text coll).2 = coll ++ [h.next] ∧
    (∀ r, r < h.next → (insertRefs h nid text coll).1.objs r = h.objs r) := by
  refine ⟨toggleRefs_length id coll h, toggleRefs_frame id coll h hwf, ?_, rfl, ?_⟩
  · intro r hr
    exact toggleRefs_objs_preserved id coll h r hr
  · intro r hr
    show Function.update h.objs h.next _ r = h.objs r
    apply Function.update_noteq
    exact Nat.ne_of_lt hr

/-- A one-object heap used to witness C2. -/
def heapW : Heap :=
  { objs := fun _ => { id := 0, text := "x", checked := false }, next := 1 }

/-- Witness for C2 at a concrete heap and collection. -/
theorem C2_structural_sharing_witness :
    (∀ r ∈ ([0] : List Ref), r < heapW.next) ∧
    ((toggleRefs 5 heapW [0]).2.length = ([0] : List Ref).length ∧
     (∀ i : Nat, ∀ hi : i < ([0] : List Ref).length,
        (heapW.objs (([0] : List Ref).get ⟨i, hi⟩)).id ≠ 5 →
        (toggleRefs 5 heapW [0]).2[i]? = some (([0] : List Ref).get ⟨i, hi⟩)) ∧
     (∀ r, r < heapW.next → (toggleRefs 5 heapW [0]).1.objs r = heapW.objs r) ∧
     (insertRefs heapW 7 "t" [0]).2 = [0] ++ [heapW.next] ∧
     (∀ r, r < heapW.next → (insertRefs heapW 7 "t" [0]).1.objs r = heapW.objs r)) :=
  ⟨by intro r hr
      simp only [List.mem_singleton] at hr
      subst hr
      show (0 : Nat) < 1
      exact Nat.zero_lt_one,
   C2_structural_sharing heapW 5 7 "t" [0]
     (by intro r hr
         simp only [List.mem_singleton] at hr
         subst hr
         show (0 : Nat) < 1
         exact Nat.zero_lt_one)⟩

/-! ### C8: handle identity is fixed and handles act on the latest state -/

/-- Modelled from the spec: a `useCallback` memo cell — the React hook
runtime that stores it is not part of the repository source.  A cell
keeps the dependency list seen at the last fill and the function
identity (`tag`) produced then (spec §4.2: handle identity is fixed
while its dependency list is unchanged). -/
structure CallbackCell where
  deps : List Nat
  tag : Nat
deriving DecidableEq

/-- Modelled from the spec: one render-time step of a `useCallback`
hook.  If the cell is filled and the dependency list is unchanged the
stored identity is returned; otherwise a fresh identity is allocated. -/
def useCallbackStep (c : Option CallbackCell) (deps : List Nat) (fresh : Nat) :
    CallbackCell × Nat :=
  match c with
  | some cell =>
      if cell.deps = deps then (cell, fresh)
      else ({ deps := deps, tag := fresh }, fresh + 1)
  | none => ({ deps := deps, tag := fresh }, fresh + 1)

/-- A live instance of the `App` component: collection state, generator,
and the three `useCallback` cells for `onInsert`, `onRemove`, `onToggle`. -/
structure AppInstance where
  todos : List Entry
  nextId : Nat
  cInsert : Option CallbackCell
  cRemove : Option CallbackCell
  cToggle : Option CallbackCell
  fresh : Nat

/-- One render of `App`: the three `useCallback` hooks run in order,
each with the empty dependency array `[]` exactly as in the source. -/
def renderApp (a : AppInstance) : AppInstance :=
  let p1 := useCallbackStep a.cInsert [] a.fresh
  let p2 := useCallbackStep a.cRemove [] p1.2
  let p3 := useCallbackStep a.cToggle [] p2.2
  { a with cInsert := some p1.1, cRemove := some p2.1,
           cToggle := some p3.1, fresh := p3.2 }

/-- Mount: first render over the seeded state with `nextId = 25001`. -/
def mountApp : AppInstance :=
  renderApp { todos := createBulkTodos, nextId := 25001,
              cInsert := none, cRemove := none, cToggle := none, fresh := 0 }

/-- Invoking a handle: the functional updater is applied to the latest
committed state (`setTodos(todos => ...)` receives the current `todos`,
and `nextId` is read from the ref at call time), then the commit
re-renders the component. -/
def invokeOp (a : AppInstance) (op : Op) : AppInstance :=
  let s := applyOp { todos := a.todos, nextId := a.nextId } op
  renderApp { a with todos := s.todos, nextId := s.nextId }

/-- Drive the instance through a sequence of handle invocations. -/
def runApp (a : AppInstance) : List Op → AppInstance
  | [] => a
  | op :: ops => runApp (invokeOp a op) ops

/-- The three handle identities of an instance. -/
def handleTags (a : AppInstance) : Option Nat × Option Nat × Option Nat :=
  (a.cInsert.map CallbackCell.tag, a.cRemove.map CallbackCell.tag,
   a.cToggle.map CallbackCell.tag)

lemma renderApp_steady (a : AppInstance) (c1 c2 c3 : Nat)
    (h1 : a.cInsert = some { deps := [], tag := c1 })
    (h2 : a.cRemove = some { deps := [], tag := c2 })
    (h3 : a.cToggle = some { deps := [], tag := c3 }) :
    renderApp a = a := by
  cases a with
  | mk todos nextId ci cr ct fr =>
    simp only [AppInstance.mk.injEq] at h1 h2 h3 ⊢
    subst h1
    subst h2
    subst h3
    simp [renderApp, useCallbackStep]

lemma invokeOp_fields (a : AppInstance) (op : Op) (c1 c2 c3 : Nat)
    (h1 : a.cInsert = some { deps := [], tag := c1 })
    (h2 : a.cRemove = some { deps := [], tag := c2 })
    (h3 : a.cToggle = some { deps := [], tag := c3 }) :
    (invokeOp a op).cInsert = some { deps := [], tag := c1 } ∧
    (invokeOp a op).cRemove = some { deps := [], tag := c2 } ∧
    (invokeOp a op).cToggle = some { deps := [], tag := c3 } ∧
    (invokeOp a op).todos = (applyOp { todos := a.todos, nextId := a.nextId } op).todos ∧
    (invokeOp a op).nextId = (applyOp { todos := a.todos, nextId := a.nextId } op).nextId := by
  have hrender : renderApp
      { a with todos := (applyOp { todos := a.todos, nextId := a.nextId } op).todos,
               nextId := (applyOp { todos := a.todos, nextId := a.nextId } op).nextId }
      = { a with todos := (applyOp { todos := a.todos, nextId := a.nextId } op).todos,
                 nextId := (applyOp { todos := a.todos, nextId := a.nextId } op).nextId } := by
    apply renderApp_steady _ c1 c2 c3
    · exact h1
    · exact h2
    · exact h3
  have hinv : invokeOp a op
      = renderApp
          { a with todos := (applyOp { todos := a.todos, nextId := a.nextId } op).todos,
                   nextId := (applyOp { todos := a.todos, nextId := a.nextId } op).nextId } := rfl
  refine ⟨?_, ?_, ?_, ?_, ?_⟩ <;> rw [hinv, hrender]
  · exact h1
  · exact h2
  · exact h3

lemma runApp_append (a : AppInstance) (ops1 ops2 : List Op) :
    runApp a (ops1 ++ ops2) = runApp (runApp a ops1) ops2 := by
  induction ops1 generalizing a with
  | nil => rfl
  | cons op ops ih => exact ih (invokeOp a op)

lemma mountApp_cells :
    mountApp.cInsert = some { deps := [], tag := 0 } ∧
    mountApp.cRemove = some { deps := [], tag := 1 } ∧
    mountApp.cToggle = some { deps := [], tag := 2 } := by
  refine ⟨rfl, rfl, rfl⟩

lemma runApp_cells (ops : List Op) :
    ∀ a : AppInstance,
      a.cInsert = some { deps := [], tag := 0 } →
      a.cRemove = some { deps := [], tag := 1 } →
      a.cToggle = some { deps := [], tag := 2 } →
      (runApp a ops).cInsert = some { deps := [], tag := 0 } ∧
      (runApp a ops).cRemove = some { deps := [], tag := 1 } ∧
      (runApp a ops).cToggle = some { deps := [], tag := 2 } := by
  induction ops with
  | nil =>
    intro a h1 h2 h3
    exact ⟨h1, h2, h3⟩
  | cons op ops ih =>
    intro a h1 h2 h3
    have hf := invokeOp_fields a op 0 1 2 h1 h2 h3
    exact ih (invokeOp a op) hf.1 hf.2.1 hf.2.2.1

/-- C8: across any sequence of committed mutations the three handle
identities equal the ones created at mount, and invoking a handle next
applies its mutation to the latest committed state — never to a stale
snapshot from handle-creation time. -/
theorem C8_stable_handles (ops : List Op) (op : Op) :
    handleTags (runApp mountApp ops) = handleTags mountApp ∧
    (runApp mountApp (ops ++ [op])).todos
      = (applyOp { todos := (runApp mountApp ops).todos,
                   nextId := (runApp mountApp ops).nextId } op).todos := by
  have hm := mountApp_cells
  have hc := runApp_cells ops mountApp hm.1 hm.2.1 hm.2.2
  constructor
  · simp only [handleTags, hc.1, hc.2.1, hc.2.2, hm.1, hm.2.1, hm.2.2]
  · rw [runApp_append]
    show (invokeOp (runApp mountApp ops) op).todos = _
    have hf := invokeOp_fields (runApp mountApp ops) op 0 1 2 hc.1 hc.2.1 hc.2.2
    exact hf.2.2.2.1
